import Mathlib

/-!
Verification of the build-orchestration pipeline in `src/tools/build/index.ts`.

The pipeline is shallowly embedded: JavaScript string primitives are modelled
as executable functions on `List Char` / `String`, the rxjs dataflow
(`scan`, `merge`, `switchMap`, `concat`) is modelled as explicit folds over
emission sequences, and the external collaborators (sass/esbuild compilers,
svgo, html-minifier-terser) are abstract function parameters.
-/

namespace Build

/- --------------------------------------------------------------------------
JavaScript string primitives
-------------------------------------------------------------------------- -/

/-- Boolean prefix test on character lists, used to locate string-pattern
occurrences the way JavaScript string search does. -/
def leadsWith : List Char → List Char → Bool
  | [], _ => true
  | _ :: _, [] => false
  | p :: ps, c :: cs => p = c && leadsWith ps cs

/-- JavaScript `String.prototype.replace` with a *string* pattern: it replaces
only the first occurrence of `pat` in `s` (scanning left to right); when `pat`
is empty it matches at position 0, so the replacement is prepended. -/
def replaceFirstL (s pat rep : List Char) : List Char :=
  match s with
  | [] => if pat.isEmpty then rep else []
  | c :: rest =>
    if leadsWith pat (c :: rest) then rep ++ (c :: rest).drop pat.length
    else c :: replaceFirstL rest pat rep

/-- String wrapper for `replaceFirstL`: the model of `s.replace(pat, rep)`
with a string (non-regex) pattern. -/
def jsReplace (s pat rep : String) : String := ⟨replaceFirstL s.data pat.data rep.data⟩

/-- Node `path.extname` (POSIX rules), modelled for paths without trailing
separators: take the portion of the last path segment from its final dot,
returning `""` when the segment has no dot, when the only dot is its first
character (hidden files such as `.bashrc`), or for the special segment `..`. -/
def extnameL (p : List Char) : List Char :=
  let rb := p.reverse.takeWhile (fun c => c ≠ '/')
  let aft := rb.takeWhile (fun c => c ≠ '.')
  if aft.length = rb.length then []
  else if aft.length + 1 = rb.length then []
  else if rb = ['.', '.'] then []
  else '.' :: aft.reverse

/-- String wrapper for `extnameL`. -/
def extname (p : String) : String := ⟨extnameL p.data⟩

/-- Model of `ext` from `src/tools/build/index.ts` lines 64-66: replace the file
extension by substituting the (first occurrence of the) `path.extname` of
`file` with `extension` via JavaScript `String.replace`. -/
def ext (file extension : String) : String := jsReplace file (extname file) extension

/-- Model of `minsvg` from `src/tools/build/index.ts` lines 78-101: data that does not
start with `<` (the `data.startsWith("<")` test, modelled with the executable
prefix test `leadsWith`) is passed through unchanged; otherwise the external
svgo `optimize` collaborator (here an abstract parameter) is applied. -/
def minsvg (svgo : String → String) (data : String) : String :=
  if leadsWith "<".data data.data then svgo data else data

/- --------------------------------------------------------------------------
Manifest aggregation (`manifest$`, src/tools/build/index.ts lines 193-219)
-------------------------------------------------------------------------- -/

/-- Manifest entries: insertion-ordered key/value pairs, the model of the
JavaScript `Map<string, string>` driven through the rxjs `scan`. -/
abbrev Manifest := List (String × String)

/-- Key normalization in the aggregator fold (line 214):
`key.replace("\\", "/")` — a JavaScript string-pattern replace, hence only
the first backslash is substituted. -/
def normKey (k : String) : String := jsReplace k "\\" "/"

/-- Value normalization in the aggregator fold (line 215):
`value.replace("\\", "/").replace(`${base}/`, "")` — first backslash replaced,
then the first occurrence of the output-root prefix removed. The output root
`base` is imported from `src/tools/build/_` (not under `src/`), so it is an
abstract parameter here. -/
def normVal (base v : String) : String := jsReplace (jsReplace v "\\" "/") (base ++ "/") ""

/-- JavaScript `Map.prototype.set`: overwrite the value in place when the key
is already present (keeping its insertion position), otherwise append. -/
def setEntry (m : Manifest) (k v : String) : Manifest :=
  match m with
  | [] => [(k, v)]
  | (k0, v0) :: rest => if k0 = k then (k, v) :: rest else (k0, v0) :: setEntry rest k v

/-- One step of the `scan` in `manifest$` (lines 211-218): fold a complete
stage batch (the `toArray()` output of one transform stage) into the
accumulated mapping with `next.set(...)` per pair, normalizing keys and
values. -/
def foldBatch (base : String) (m : Manifest) (batch : List (String × String)) : Manifest :=
  batch.foldl (fun acc kv => setEntry acc (normKey kv.1) (normVal base kv.2)) m

/-- First-match lookup in an insertion-ordered manifest (`Map.get`). -/
def manifestLookup : Manifest → String → Option String
  | [], _ => none
  | (k0, v0) :: rest, k => if k0 = k then some v0 else manifestLookup rest k

/-- Left-biased choice on optional values. -/
def orD : Option String → Option String → Option String
  | some v, _ => some v
  | none, b => b

/-- Value that a batch contributes for key `k` after normalization: the last
pair in the batch whose normalized key is `k` wins (later `Map.set` calls for
the same key overwrite earlier ones). -/
def batchLookup (base : String) (batch : List (String × String)) (k : String) : Option String :=
  manifestLookup ((batch.map (fun kv => (normKey kv.1, normVal base kv.2))).reverse) k

/-- Emission sequence of rxjs `scan`: one accumulator snapshot per upstream
emission; the seed itself is not emitted. In the source the snapshots are in
fact one and the same mutable `Map` object, threaded through the fold. -/
def scanEmits (f : Manifest → List (String × String) → Manifest) (acc : Manifest) :
    List (List (String × String)) → List Manifest
  | [] => []
  | b :: bs => f acc b :: scanEmits f (f acc b) bs

/-- Emissions of `manifest$` given the ordered sequence of stage batches
arriving at the `scan` (lines 210-219). In a one-shot build the sequence is
the style batch and the script batch in completion order; in watch mode every
watch trigger appends that branch's full re-emitted batch. -/
def manifestStates (base : String) (batches : List (List (String × String))) : List Manifest :=
  scanEmits (foldBatch base) [] batches

/-- Manifests observed by the template-rewrite passes: `templates$`
(lines 222-227) pipes `manifest$` through `switchMap`, so every emission of
`manifestStates` starts (or restarts) one rewrite pass with that snapshot. -/
def templatePasses (base : String) (batches : List (List (String × String))) : List Manifest :=
  manifestStates base batches

/-- Final accumulated manifest after all batches have been folded. -/
def lastManifest (base : String) (batches : List (List (String × String))) : Manifest :=
  batches.foldl (foldBatch base) []

/-- Pair emitted by the style stage (`stylesheets$`, lines 169-178) for one
resolved file: the key is `ext(file, ".css")` and the value is the output path
the transform reports. Modelled from the spec: `transformStyle`
(`src/tools/build/transform`, not under `src/`) writes the compiled file to
its `to` argument `ext(`${base}/${file}`, ".css")` and reports that output
path, which the aggregator then strips of the `base` prefix. -/
def stylePair (base file : String) : String × String :=
  (ext file ".css", ext (base ++ "/" ++ file) ".css")

/-- Pair emitted by the script stage (`javascripts$`, lines 181-190) for one
resolved file, with extension `.js`. Modelled from the spec: `transformScript`
reports its `to` argument `ext(`${base}/${file}`, ".js")` as the output
path. -/
def scriptPair (base file : String) : String × String :=
  (ext file ".js", ext (base ++ "/" ++ file) ".js")

/- --------------------------------------------------------------------------
Template rewriting (`templates$` transform callback, lines 228-254)
-------------------------------------------------------------------------- -/

/-- Double-quote character. -/
def dq : Char := Char.ofNat 34

/-- Single-quote character. -/
def sq : Char := Char.ofNat 39

/-- Character match for one key character inside the dynamically built regex
`new RegExp(`('|")${key}\1`, "g")` (lines 237-240): the key is interpolated
*unescaped*, so a literal `.` in the key is the regex wildcard, matching any
character other than a line terminator; every other path character matches
itself. -/
def keyCharMatches (k c : Char) : Bool :=
  if k = '.' then !(c = '\n' || c = '\r' || c = '\u2028' || c = '\u2029')
  else k = c

/-- Match the interpolated key pattern against the front of `text`; on success
return the remaining text. -/
def matchKey : List Char → List Char → Option (List Char)
  | [], t => some t
  | _ :: _, [] => none
  | k :: ks, c :: cs => if keyCharMatches k c then matchKey ks cs else none

/-- Global regex replace for one manifest entry: scan left to right; at a
single or double quote, try to match the key pattern followed by the same
quote (the `\1` backreference); on a match emit `$1${value}$1` (quote, value,
quote) and continue after the match, otherwise advance one character. The
`fuel` argument (instantiated with the text length) makes the recursion
structural; it never runs out because every step consumes at least one
character. -/
def applyKeyAux (key value : List Char) : Nat → List Char → List Char
  | _, [] => []
  | 0, l => l
  | fuel + 1, c :: rest =>
    if c = dq ∨ c = sq then
      match matchKey key rest with
      | some (q :: r2) =>
        if q = c then c :: (value ++ (c :: applyKeyAux key value fuel r2))
        else c :: applyKeyAux key value fuel rest
      | _ => c :: applyKeyAux key value fuel rest
    else c :: applyKeyAux key value fuel rest

/-- Model of `data.replace(new RegExp(`('|")${key}\1`, "g"), `$1${value}$1`)`
for one manifest entry. -/
def applyKeyL (key value text : List Char) : List Char :=
  applyKeyAux key value text.length text

/-- Lines 235-240: when `--optimize` is given, the manifest entries are
applied to the template text one after another in manifest (insertion) order;
without the flag the text is untouched. -/
def applyManifest (optimizeFlag : Bool) (m : Manifest) (data : String) : String :=
  if optimizeFlag then
    m.foldl (fun acc kv => ⟨applyKeyL kv.1.data kv.2.data acc.data⟩) data
  else data

/-- Line 243: `data.replace(/\r\n/gm, "\n")` — normalize CRLF pairs. -/
def normCRLFL : List Char → List Char
  | [] => []
  | '\r' :: '\n' :: rest => '\n' :: normCRLFL rest
  | c :: rest => c :: normCRLFL rest

/-- String wrapper for `normCRLFL`. -/
def normCRLF (s : String) : String := ⟨normCRLFL s.data⟩

/-- ASCII part of the JavaScript `\s` whitespace class. -/
def isWsChar (c : Char) : Bool :=
  c = ' ' || c = '\t' || c = '\x0b' || c = '\x0c' || c = '\r' || c = '\n'

/-- Length of the regex match `^\s*[\r\n]` at a line start, when there is
one: the longest whitespace run ending with a line break. -/
def blankPrefixLen (l : List Char) : Option Nat :=
  let run := l.takeWhile isWsChar
  let rn := run.reverse.dropWhile (fun c => !(c = '\r' || c = '\n'))
  if rn.isEmpty then none else some rn.length

/-- Line 253: `html.replace(/^\s*[\r\n]/gm, "")` — remove blank lines from the
minifier output, modelled for ASCII whitespace; `atStart` tracks whether the
current position is a line start (string start or right after a line break).
`fuel` (the text length) makes the recursion structural. -/
def stripBlankAux : Nat → Bool → List Char → List Char
  | _, _, [] => []
  | 0, _, l => l
  | fuel + 1, atStart, c :: rest =>
    if atStart then
      match blankPrefixLen (c :: rest) with
      | some k => stripBlankAux fuel true ((c :: rest).drop k)
      | none => c :: stripBlankAux fuel (c = '\n' || c = '\r') rest
    else c :: stripBlankAux fuel (c = '\n' || c = '\r') rest

/-- String wrapper for `stripBlankAux`. -/
def stripBlankLines (s : String) : String := ⟨stripBlankAux s.data.length true s.data⟩

/-- Banner comment prepended to every rewritten template (lines 229-232). -/
def banner : String :=
  "\x7b#-\n  This file was automatically generated - do not edit\n-#\x7d\n"

/-- Template transform callback of `templates$` (lines 228-254): apply the
manifest when `--optimize` is given, normalize line feeds, minify through the
external `html-minifier-terser` collaborator (abstract parameter `mh`), strip
blank lines from its output, and prepend the banner — the banner is added
after minification. -/
def templateTransform (mh : String → String) (optimizeFlag : Bool) (m : Manifest)
    (data : String) : String :=
  banner ++ stripBlankLines (mh (normCRLF (applyManifest optimizeFlag m data)))

/- --------------------------------------------------------------------------
Pipeline assembly (`assets$`, `build$`, lines 108-164 and 263-269)
-------------------------------------------------------------------------- -/

/-- Observable events of the assembled pipeline, for phase-ordering claims:
completion of one asset-copy pass, start of one transform-stage invocation,
start of one template-rewrite pass. -/
inductive BuildEvent
  | copyDone (pattern src dst : String)
  | transformStart (file : String)
  | rewriteStart (generation : Nat)
deriving DecidableEq

/-- Predicate: the event is an asset-copy completion. -/
def isCopy : BuildEvent → Prop
  | .copyDone _ _ _ => True
  | _ => False


/-- Predicate: the event is a transform-stage start. -/
def isTransform : BuildEvent → Prop
  | .transformStart _ => True
  | _ => False

/-- The twelve `copyAll` passes of `assets$` (lines 108-164), in their
`concat` order: `(pattern, from, to)` triples. -/
def copyPasses (base : String) : List (String × String × String) :=
  [ ("*.svg", "node_modules/@mdi/svg/svg", base ++ "/.icons/material"),
    ("../LICENSE", "node_modules/@mdi/svg/svg", base ++ "/.icons/material"),
    ("*.svg", "node_modules/@primer/octicons/build/svg", base ++ "/.icons/octicons"),
    ("../../LICENSE", "node_modules/@primer/octicons/build/svg", base ++ "/.icons/octicons"),
    ("**/*.svg", "node_modules/@fortawesome/fontawesome-free/svgs", base ++ "/.icons/fontawesome"),
    ("../LICENSE.txt", "node_modules/@fortawesome/fontawesome-free/svgs", base ++ "/.icons/fontawesome"),
    ("**/*.svg", "node_modules/lucide-static/icons", base ++ "/.icons/lucide"),
    ("../LICENSE", "node_modules/lucide-static/icons", base ++ "/.icons/lucide"),
    ("**/*.svg", "node_modules/simple-icons/icons", base ++ "/.icons/simple"),
    ("../LICENSE.md", "node_modules/simple-icons/icons", base ++ "/.icons/simple"),
    ("**/*.\x7bjpg,png,svg,yml\x7d", "src", base),
    ("LICENSE", "src/assets/javascripts", "dist/assets/javascripts") ]

/-- Completion events of `assets$`: a `concat` of the copy passes, so they
complete in order, and all of them complete before `assets$` completes. -/
def assetsTrace (base : String) : List BuildEvent :=
  (copyPasses base).map (fun p => BuildEvent.copyDone p.1 p.2.1 p.2.2)

/-- Event trace of `build$` (lines 263-266):
`process.argv.includes("--dirty") ? merge(templates$) : concat(assets$, templates$)`.
With `--dirty` only the `templates$` events occur; otherwise rxjs `concat`
subscribes `templates$` — whose transform and rewrite work is cold and starts
only on subscription — after `assets$` has completed, so every copy event
precedes every `templates$` event. `tmpl` is the (arbitrary) interleaving of
transform-stage and rewrite events produced by `templates$`. -/
def buildTrace (dirty : Bool) (base : String) (tmpl : List BuildEvent) : List BuildEvent :=
  if dirty then tmpl else assetsTrace base ++ tmpl

/- --------------------------------------------------------------------------
switchMap timing model (`templates$`, lines 222-227)
-------------------------------------------------------------------------- -/

/-- Completion time of the rewrite pass started by emission `i`, given the
arrival time of each manifest emission and the running time of each pass. -/
def passEnd (arrival dur : Nat → Nat) (i : Nat) : Nat := arrival i + dur i

/-- rxjs `switchMap` cancellation: the pass started by emission `i` runs to
completion exactly when no later emission (of the `n` emissions) arrives
before it finishes; otherwise the later emission cancels it and starts a new
pass. -/
def passCompletes (arrival dur : Nat → Nat) (n i : Nat) : Prop :=
  ∀ j, i < j → j < n → passEnd arrival dur i < arrival j

/- --------------------------------------------------------------------------
Helper lemmas: JavaScript string replace
-------------------------------------------------------------------------- -/

theorem leadsWith_self_append (p t : List Char) : leadsWith p (p ++ t) = true := by
  induction p with
  | nil => rfl
  | cons c ps ih => simp [leadsWith, ih]

theorem replaceFirstL_nil_pat (s rep : List Char) : replaceFirstL s [] rep = rep ++ s := by
  cases s with
  | nil => simp [replaceFirstL]
  | cons c rest => simp [replaceFirstL, leadsWith]

theorem replaceFirstL_self_append (c : Char) (ps w rep : List Char) :
    replaceFirstL (c :: ps ++ w) (c :: ps) rep = rep ++ w := by
  have h := leadsWith_self_append (c :: ps) w
  simp only [List.cons_append] at h
  simp [replaceFirstL, h, List.drop_left]

theorem replaceFirstL_not_head (a : Char) (ps rep : List Char) :
    ∀ s : List Char, a ∉ s → replaceFirstL s (a :: ps) rep = s := by
  intro s
  induction s with
  | nil => intro _; simp [replaceFirstL]
  | cons c rest ih =>
    intro h
    have hca : ¬(a = c) := fun he => h (he ▸ List.mem_cons_self _ _)
    have h1 : a ∉ rest := fun hm => h (List.mem_cons_of_mem _ hm)
    simp [replaceFirstL, leadsWith, hca, ih h1]

theorem replaceFirstL_append_left (a : Char) (ps rep : List Char) :
    ∀ l1 l2 : List Char, a ∉ l1 →
      replaceFirstL (l1 ++ l2) (a :: ps) rep = l1 ++ replaceFirstL l2 (a :: ps) rep := by
  intro l1
  induction l1 with
  | nil => simp
  | cons c r ih =>
    intro l2 h
    have hca : ¬(a = c) := fun he => h (he ▸ List.mem_cons_self _ _)
    have h1 : a ∉ r := fun hm => h (List.mem_cons_of_mem _ hm)
    simp [replaceFirstL, leadsWith, hca, ih l2 h1]

theorem replaceFirstL_count_le_one (a b : Char) (hab : ¬b = a) :
    ∀ s : List Char, s.count a ≤ 1 → a ∉ replaceFirstL s [a] [b] := by
  intro s
  induction s with
  | nil => intro _; simp [replaceFirstL]
  | cons c rest ih =>
    intro h
    by_cases hc : a = c
    · subst hc
      have hz : rest.count a = 0 := by
        simp [List.count_cons] at h
        omega
      have hnr : a ∉ rest := by
        intro hm
        have := List.count_pos_iff.mpr hm
        omega
      have hstep : replaceFirstL (a :: rest) [a] [b] = b :: rest := by
        simp [replaceFirstL, leadsWith]
      rw [hstep]
      intro hmem
      rcases List.mem_cons.mp hmem with he | hm
      · exact hab he.symm
      · exact hnr hm
    · have hca : (c == a) = false := by
        rw [beq_eq_false_iff_ne]
        exact fun h' => hc h'.symm
      have h1 : rest.count a ≤ 1 := by
        rw [List.count_cons, hca] at h
        simpa using h
      have hstep : replaceFirstL (c :: rest) [a] [b] = c :: replaceFirstL rest [a] [b] := by
        simp [replaceFirstL, leadsWith, hc]
      rw [hstep]
      intro hmem
      rcases List.mem_cons.mp hmem with he | hm
      · exact hc he
      · exact ih h1 hm

/- --------------------------------------------------------------------------
Helper lemmas: extname and ext
-------------------------------------------------------------------------- -/

theorem takeWhile_append_all (p : Char → Bool) :
    ∀ l1 l2 : List Char, (∀ a ∈ l1, p a = true) →
      (l1 ++ l2).takeWhile p = l1 ++ l2.takeWhile p := by
  intro l1
  induction l1 with
  | nil => simp
  | cons a r ih =>
    intro l2 h
    have ha : p a = true := h a (List.mem_cons_self _ _)
    have hr : ∀ x ∈ r, p x = true := fun x hx => h x (List.mem_cons_of_mem _ hx)
    simp [List.takeWhile_cons, ha, ih l2 hr]

theorem revTakeWhile_append_ne_nil (l s : List Char) (h1 : s ≠ [])
    (h2 : s.reverse.head? ≠ some '/') :
    ((l ++ s).reverse.takeWhile (fun c => c ≠ '/')) ≠ [] := by
  rw [List.reverse_append]
  cases hr : s.reverse with
  | nil => exact absurd (by simpa using congrArg List.reverse hr) h1
  | cons c r =>
    have hc : ¬(c = '/') := by
      rw [hr] at h2
      simpa using h2
    simp [List.takeWhile_cons, hc]

theorem extnameL_append_dot (pre tail : List Char)
    (hne : pre.reverse.takeWhile (fun c => c ≠ '/') ≠ [])
    (htd : '.' ∉ tail) (hts : '/' ∉ tail) (htn : tail ≠ []) :
    extnameL (pre ++ '.' :: tail) = '.' :: tail := by
  have hts' : ∀ a ∈ tail.reverse, (fun c => decide (c ≠ '/')) a = true := by
    intro a ha
    simp only [decide_eq_true_eq]
    exact fun he => hts (he ▸ List.mem_reverse.mp ha)
  have htd' : ∀ a ∈ tail.reverse, (fun c => decide (c ≠ '.')) a = true := by
    intro a ha
    simp only [decide_eq_true_eq]
    exact fun he => htd (he ▸ List.mem_reverse.mp ha)
  have hrb : (pre ++ '.' :: tail).reverse.takeWhile (fun c => c ≠ '/')
      = tail.reverse ++ '.' :: pre.reverse.takeWhile (fun c => c ≠ '/') := by
    rw [List.reverse_append, List.reverse_cons]
    rw [List.append_assoc]
    rw [takeWhile_append_all _ _ _ hts']
    simp [List.takeWhile_cons]
  have haft : (tail.reverse ++ '.' :: pre.reverse.takeWhile (fun c => c ≠ '/')).takeWhile
      (fun c => c ≠ '.') = tail.reverse := by
    rw [takeWhile_append_all _ _ _ htd']
    simp [List.takeWhile_cons]
  have hplen : 0 < (pre.reverse.takeWhile (fun c => c ≠ '/')).length :=
    List.length_pos.mpr hne
  obtain ⟨c0, t0, hc0⟩ : ∃ c0 t0, tail = c0 :: t0 := by
    cases tail with
    | nil => exact absurd rfl htn
    | cons x xs => exact ⟨x, xs, rfl⟩
  have hnotdots : tail.reverse ++ '.' :: pre.reverse.takeWhile (fun c => c ≠ '/')
      ≠ ['.', '.'] := by
    intro he
    have hmem : c0 ∈ (['.', '.'] : List Char) := by
      rw [← he]
      exact List.mem_append_left _ (List.mem_reverse.mpr (hc0 ▸ List.mem_cons_self _ _))
    have : c0 = '.' := by simpa using hmem
    exact htd (this ▸ hc0 ▸ List.mem_cons_self _ _)
  have hlen1 : ¬(tail.reverse.length
      = (tail.reverse ++ '.' :: pre.reverse.takeWhile (fun c => c ≠ '/')).length) := by
    simp
  have hlen2 : ¬(tail.reverse.length + 1
      = (tail.reverse ++ '.' :: pre.reverse.takeWhile (fun c => c ≠ '/')).length) := by
    rw [List.length_append, List.length_cons]
    omega
  simp only [extnameL, hrb, haft]
  rw [if_neg hlen1, if_neg hlen2, if_neg hnotdots]
  simp

theorem extname_shape (pre tail : String)
    (hne : pre.data.reverse.takeWhile (fun c => c ≠ '/') ≠ [])
    (htd : '.' ∉ tail.data) (hts : '/' ∉ tail.data) (htn : tail.data ≠ []) :
    extname (pre ++ "." ++ tail) = "." ++ tail := by
  apply String.ext
  show extnameL (pre ++ "." ++ tail).data = ("." ++ tail).data
  have hd1 : (pre ++ "." ++ tail).data = pre.data ++ '.' :: tail.data := by
    simp [String.data_append]
  have hd2 : ("." ++ tail).data = '.' :: tail.data := by
    simp [String.data_append]
  rw [hd1, hd2]
  exact extnameL_append_dot pre.data tail.data hne htd hts htn

theorem ext_shape (pre tail e : String)
    (hpd : '.' ∉ pre.data)
    (hne : pre.data.reverse.takeWhile (fun c => c ≠ '/') ≠ [])
    (htd : '.' ∉ tail.data) (hts : '/' ∉ tail.data) (htn : tail.data ≠ []) :
    ext (pre ++ "." ++ tail) e = pre ++ e := by
  apply String.ext
  rw [ext, extname_shape pre tail hne htd hts htn]
  show replaceFirstL (pre ++ "." ++ tail).data ("." ++ tail).data e.data = (pre ++ e).data
  have hd1 : (pre ++ "." ++ tail).data = pre.data ++ '.' :: tail.data := by
    simp [String.data_append]
  have hd2 : ("." ++ tail).data = '.' :: tail.data := by
    simp [String.data_append]
  rw [hd1, hd2]
  rw [replaceFirstL_append_left '.' tail.data e.data pre.data ('.' :: tail.data) hpd]
  have hself : replaceFirstL ('.' :: tail.data) ('.' :: tail.data) e.data = e.data := by
    have h := replaceFirstL_self_append '.' tail.data [] e.data
    simpa using h
  rw [hself]
  simp [String.data_append]

theorem normVal_strip (base w : String) (hb : '\\' ∉ base.data) (hw : '\\' ∉ w.data) :
    normVal base (base ++ "/" ++ w) = w := by
  have hv : '\\' ∉ (base ++ "/" ++ w).data := by
    simp only [String.data_append]
    intro hmem
    rcases List.mem_append.mp hmem with h1 | h2
    · rcases List.mem_append.mp h1 with h3 | h4
      · exact hb h3
      · simp at h4
    · exact hw h2
  have h1 : jsReplace (base ++ "/" ++ w) "\\" "/" = base ++ "/" ++ w := by
    apply String.ext
    show replaceFirstL (base ++ "/" ++ w).data ('\\' :: []) "/".data
        = (base ++ "/" ++ w).data
    exact replaceFirstL_not_head '\\' [] "/".data _ hv
  rw [normVal, h1]
  apply String.ext
  show replaceFirstL (base ++ "/" ++ w).data (base ++ "/").data [] = w.data
  obtain ⟨c, ps, hcp⟩ : ∃ c ps, (base ++ "/").data = c :: ps := by
    cases hx : (base ++ "/").data with
    | nil =>
      exfalso
      rw [String.data_append] at hx
      simpa using congrArg List.length hx
    | cons c ps => exact ⟨c, ps, rfl⟩
  have hsplit : (base ++ "/" ++ w).data = (base ++ "/").data ++ w.data :=
    String.data_append _ _
  rw [hsplit, hcp]
  have h := replaceFirstL_self_append c ps w.data []
  simpa using h

/- --------------------------------------------------------------------------
Helper lemmas: manifest fold
-------------------------------------------------------------------------- -/

theorem manifestLookup_setEntry (m : Manifest) (a v k : String) :
    manifestLookup (setEntry m a v) k = if a = k then some v else manifestLookup m k := by
  induction m with
  | nil =>
    by_cases hk : a = k <;> simp [setEntry, manifestLookup, hk]
  | cons kv rest ih =>
    obtain ⟨k0, v0⟩ := kv
    by_cases h0 : k0 = a
    · subst h0
      by_cases hk : k0 = k
      · subst hk
        simp [setEntry, manifestLookup]
      · simp [setEntry, manifestLookup, hk]
    · by_cases hk : k0 = k
      · subst hk
        have hak : ¬(a = k0) := fun he => h0 he.symm
        simp [setEntry, manifestLookup, h0, hak]
      · simp [setEntry, manifestLookup, h0, hk, ih]

theorem manifestLookup_append (l1 l2 : Manifest) (k : String) :
    manifestLookup (l1 ++ l2) k = orD (manifestLookup l1 k) (manifestLookup l2 k) := by
  induction l1 with
  | nil => simp [manifestLookup, orD]
  | cons kv rest ih =>
    obtain ⟨k0, v0⟩ := kv
    by_cases hk : k0 = k <;> simp [manifestLookup, hk, orD, ih]

theorem lookup_foldBatch (base : String) :
    ∀ (b : List (String × String)) (m : Manifest) (k : String),
      manifestLookup (foldBatch base m b) k
        = orD (batchLookup base b k) (manifestLookup m k) := by
  intro b
  induction b with
  | nil => intro m k; simp [foldBatch, batchLookup, manifestLookup, orD]
  | cons kv t ih =>
    intro m k
    have hstep : foldBatch base m (kv :: t)
        = foldBatch base (setEntry m (normKey kv.1) (normVal base kv.2)) t := rfl
    rw [hstep, ih]
    have hb : batchLookup base (kv :: t) k
        = orD (batchLookup base t k)
            (if normKey kv.1 = k then some (normVal base kv.2) else none) := by
      simp only [batchLookup, List.map_cons, List.reverse_cons]
      rw [manifestLookup_append]
      by_cases hk : normKey kv.1 = k <;> simp [manifestLookup, hk]
    rw [hb, manifestLookup_setEntry]
    cases batchLookup base t k <;> by_cases hk : normKey kv.1 = k <;> simp [orD, hk]

theorem scanEmits_getLastD (f : Manifest → List (String × String) → Manifest) :
    ∀ (bs : List (List (String × String))) (acc : Manifest),
      (scanEmits f acc bs).getLastD acc = bs.foldl f acc := by
  intro bs
  induction bs with
  | nil => intro acc; simp [scanEmits]
  | cons b t ih =>
    intro acc
    show (f acc b :: scanEmits f (f acc b) t).getLastD acc = List.foldl f acc (b :: t)
    rw [List.getLastD_cons, ih]
    rfl

theorem manifestStates_getLastD (base : String) (bs : List (List (String × String))) :
    (manifestStates base bs).getLastD [] = lastManifest base bs :=
  scanEmits_getLastD (foldBatch base) bs []

theorem manifestLookup_mem :
    ∀ (m : Manifest) (k v : String), manifestLookup m k = some v → (k, v) ∈ m := by
  intro m
  induction m with
  | nil => intro k v h; simp [manifestLookup] at h
  | cons kv rest ih =>
    intro k v h
    obtain ⟨k0, v0⟩ := kv
    by_cases hk : k0 = k
    · subst hk
      simp [manifestLookup] at h
      subst h
      exact List.mem_cons_self _ _
    · simp [manifestLookup, hk] at h
      exact List.mem_cons_of_mem _ (ih k v h)

theorem batchLookup_mem (base : String) (b : List (String × String)) (k : String)
    (h : batchLookup base b k ≠ none) : ∃ kv ∈ b, normKey kv.1 = k := by
  cases hb : batchLookup base b k with
  | none => exact absurd hb h
  | some v =>
    have hmem := manifestLookup_mem _ k v hb
    rw [List.mem_reverse] at hmem
    obtain ⟨kv, hkv, heq⟩ := List.mem_map.mp hmem
    exact ⟨kv, hkv, congrArg Prod.fst heq⟩

/- --------------------------------------------------------------------------
Helper lemmas: template rewrite
-------------------------------------------------------------------------- -/

theorem keyCharMatches_refl (c : Char) : keyCharMatches c c = true := by
  by_cases h : c = '.'
  · subst h
    decide
  · simp [keyCharMatches, h]

theorem matchKey_self : ∀ (k t : List Char), matchKey k (k ++ t) = some t := by
  intro k
  induction k with
  | nil => intro t; rfl
  | cons c ks ih =>
    intro t
    simp [matchKey, keyCharMatches_refl, ih]

theorem matchKey_length :
    ∀ (k t r : List Char), matchKey k t = some r → r.length ≤ t.length := by
  intro k
  induction k with
  | nil =>
    intro t r h
    simp [matchKey] at h
    subst h
    exact Nat.le_refl _
  | cons c ks ih =>
    intro t r h
    cases t with
    | nil => simp [matchKey] at h
    | cons a as =>
      by_cases hm : keyCharMatches c a = true
      · simp [matchKey, hm] at h
        exact Nat.le_succ_of_le (ih as r h)
      · simp [matchKey, hm] at h

theorem applyKeyAux_fuel (key value : List Char) :
    ∀ (f1 : Nat) (t : List Char) (f2 : Nat), t.length ≤ f1 → t.length ≤ f2 →
      applyKeyAux key value f1 t = applyKeyAux key value f2 t := by
  intro f1
  induction f1 with
  | zero =>
    intro t f2 h1 _
    have ht : t = [] := List.length_eq_zero.mp (Nat.le_zero.mp h1)
    subst ht
    cases f2 <;> rfl
  | succ f ih =>
    intro t f2 h1 h2
    cases t with
    | nil => cases f2 <;> rfl
    | cons c rest =>
      cases f2 with
      | zero => simp at h2
      | succ f2x =>
        have hr : rest.length ≤ f := by
          simp at h1
          omega
        have hr2 : rest.length ≤ f2x := by
          simp at h2
          omega
        simp only [applyKeyAux]
        by_cases hq : c = dq ∨ c = sq
        · rw [if_pos hq, if_pos hq]
          cases hm : matchKey key rest with
          | none => simp [ih rest f2x hr hr2]
          | some r =>
            cases r with
            | nil => simp [ih rest f2x hr hr2]
            | cons q r2 =>
              have hr2len : r2.length ≤ rest.length := by
                have h := matchKey_length key rest (q :: r2) hm
                simp at h
                omega
              have e1 := ih r2 f2x (Nat.le_trans hr2len hr) (Nat.le_trans hr2len hr2)
              have e2 := ih rest f2x hr hr2
              by_cases hqc : q = c <;> simp [hqc, e1, e2]
        · rw [if_neg hq, if_neg hq, ih rest f2x hr hr2]

theorem applyKeyL_append_no_quote (key value : List Char) :
    ∀ (pre t : List Char), (∀ c ∈ pre, ¬(c = dq ∨ c = sq)) →
      applyKeyL key value (pre ++ t) = pre ++ applyKeyL key value t := by
  intro pre
  induction pre with
  | nil => simp
  | cons c p ih =>
    intro t h
    have hc : ¬(c = dq ∨ c = sq) := h c (List.mem_cons_self _ _)
    have hp : ∀ x ∈ p, ¬(x = dq ∨ x = sq) := fun x hx => h x (List.mem_cons_of_mem _ hx)
    show applyKeyAux key value (c :: (p ++ t)).length (c :: (p ++ t)) = _
    rw [List.length_cons]
    simp only [applyKeyAux]
    rw [if_neg hc]
    rw [show (p ++ t).length = (p ++ t).length from rfl]
    have : applyKeyAux key value (p ++ t).length (p ++ t) = applyKeyL key value (p ++ t) := rfl
    rw [this, ih t hp]
    rfl

theorem applyKeyL_no_quote (key value : List Char) (t : List Char)
    (h : ∀ c ∈ t, ¬(c = dq ∨ c = sq)) : applyKeyL key value t = t := by
  have h1 := applyKeyL_append_no_quote key value t [] h
  simpa [applyKeyL, applyKeyAux] using h1

theorem applyKeyL_quoted_head (key value post : List Char) (q : Char)
    (hq : q = dq ∨ q = sq) :
    applyKeyL key value (q :: key ++ q :: post)
      = q :: value ++ q :: applyKeyL key value post := by
  show applyKeyAux key value (q :: (key ++ q :: post)).length (q :: (key ++ q :: post)) = _
  rw [List.length_cons]
  simp only [applyKeyAux]
  rw [if_pos hq, matchKey_self key (q :: post)]
  have hfl : applyKeyAux key value (key.length + (post.length + 1)) post
      = applyKeyL key value post := by
    apply applyKeyAux_fuel
    · omega
    · exact Nat.le_refl _
  simp [hfl]

/- --------------------------------------------------------------------------
Claim theorems
-------------------------------------------------------------------------- -/

/-- C1, counterexample: the manifest handed to the rewriter for generation 2
(the last `scan` emission after the generation-2 batch `[("b.css","b.css")]`
was folded) still contains the entry `("a.css","a.css")` computed in
generation 1, which generation 2 did not compute — the `scan` accumulator
carries entries over between generations. -/
theorem c1_counterexample :
    (manifestStates "dist" [[("a.css", "a.css")], [("b.css", "b.css")]]).getLastD []
      = [("a.css", "a.css"), ("b.css", "b.css")]
    ∧ batchLookup "dist" [("b.css", "b.css")] "a.css" = none := by
  decide

/-- C1, amended: after folding the generation-`g` batch, a key recomputed in
that batch maps to its generation-`g` value, but every key not recomputed
keeps its value from the previous generations — the aggregator accumulates
into one mapping across generations (rxjs `scan` with a single seed) instead
of producing a fresh mapping per generation. -/
theorem c1_amended (base : String) (gens : List (List (String × String)))
    (g : List (String × String)) (k : String) :
    manifestLookup ((manifestStates base (gens ++ [g])).getLastD []) k
      = orD (batchLookup base g k)
          (manifestLookup ((manifestStates base gens).getLastD []) k) := by
  rw [manifestStates_getLastD, manifestStates_getLastD]
  show manifestLookup ((gens ++ [g]).foldl (foldBatch base) []) k = _
  rw [List.foldl_append]
  show manifestLookup (foldBatch base (gens.foldl (foldBatch base) []) g) k = _
  rw [lookup_foldBatch]
  rfl

/-- C2, counterexample: with the style batch completing first, the first
`manifest$` emission — on which `switchMap` immediately starts a template
rewrite pass — contains only the style stage's output and lacks the script
stage's entry `b.js`, so a rewriter invocation does start before both stages
are folded in. -/
theorem c2_counterexample :
    (templatePasses "dist" [[("a.css", "dist/a.css")], [("b.js", "dist/b.js")]]).head?
      = some [("a.css", "a.css")]
    ∧ manifestLookup [("a.css", "a.css")] "b.js" = none := by
  decide

/-- C2, amended: stage outputs are folded only as complete per-stage batches,
and every fold re-triggers the rewriter via `switchMap`, so although an early
rewrite pass can start with only the first-completing stage folded in, the
final pass of a one-shot build observes a manifest resolving every key of
both complete batches (the later batch taking precedence). -/
theorem c2_amended (base : String) (s j : List (String × String)) (k : String) :
    manifestLookup ((templatePasses base [s, j]).getLastD []) k
      = orD (batchLookup base j k) (batchLookup base s k) := by
  show manifestLookup ((manifestStates base [s, j]).getLastD []) k = _
  rw [manifestStates_getLastD]
  show manifestLookup (foldBatch base (foldBatch base [] s) j) k = _
  rw [lookup_foldBatch, lookup_foldBatch]
  cases batchLookup base j k <;> cases batchLookup base s k <;>
    simp [orD, manifestLookup]

/-- C5, counterexample: the aggregator's `key.replace("\\", "/")` is a
string-pattern replace, so in a key with two backslashes only the first one
is turned into a forward slash and a backslash survives normalization. -/
theorem c5_counterexample :
    normKey "a\\b\\c.scss" = "a/b\\c.scss"
    ∧ '\\' ∈ (normKey "a\\b\\c.scss").data := by
  decide

/-- C5, amended: only the first backslash of the key and of the value is
replaced by `/`, and only the first occurrence of the output-root prefix is
removed from the value; for keys with at most one backslash and values that
are the output root prefixing a backslash-free path, the results are fully
normalized root-relative paths. -/
theorem c5_amended (base k w : String) (hk : k.data.count '\\' ≤ 1)
    (hb : '\\' ∉ base.data) (hw : '\\' ∉ w.data) :
    '\\' ∉ (normKey k).data ∧ normVal base (base ++ "/" ++ w) = w := by
  constructor
  · show '\\' ∉ replaceFirstL k.data "\\".data "/".data
    exact replaceFirstL_count_le_one '\\' '/' (by decide) k.data hk
  · exact normVal_strip base w hb hw

/-- C5 witness: the amended statement at a concrete key and value. -/
theorem c5_witness :
    '\\' ∉ (normKey "a\\b.scss").data
    ∧ normVal "dist" ("dist" ++ "/" ++ "a/b.css") = "a/b.css" :=
  c5_amended "dist" "a\\b.scss" "a/b.css" (by decide) (by decide) (by decide)

/-- C7 (confirmed): any input that does not begin with `<` is returned
unchanged by the SVG-optimize transform, whatever the external optimizer
does, so plain-text license files pass through the copy pipeline
unmodified. -/
theorem c7_minsvg_passthrough (svgo : String → String) (data : String)
    (h : leadsWith "<".data data.data = false) :
    minsvg svgo data = data := by
  simp [minsvg, h]

/-- C7 witness: a plain-text input passes through unchanged. -/
theorem c7_witness :
    minsvg (fun _ => "") "Copyright 2025 Zensical" = "Copyright 2025 Zensical" :=
  c7_minsvg_passthrough (fun _ => "") "Copyright 2025 Zensical" (by decide)

/-- C8 (confirmed): for every minifier, manifest, flag and template, the
written output is exactly the banner followed by the post-minification
content: the banner is prepended after minification and blank-line
stripping, so it is never minified or stripped. -/
theorem c8_banner_first (mh : String → String) (optimizeFlag : Bool) (m : Manifest)
    (data : String) :
    ∃ rest, templateTransform mh optimizeFlag m data = banner ++ rest :=
  ⟨_, rfl⟩

/-- C10 (confirmed): for a file name with no dot, `path.extname` is empty and
JavaScript `replace` with an empty pattern matches at position 0, so `ext`
prepends the new extension to the name. -/
theorem c10_ext_no_dot (file e : String) (h : '.' ∉ file.data) :
    ext file e = e ++ file := by
  have hsub : ∀ a ∈ file.data.reverse.takeWhile (fun c => c ≠ '/'),
      (fun c => decide (c ≠ '.')) a = true := by
    intro a ha
    simp only [decide_eq_true_eq]
    intro he
    subst he
    exact h (List.mem_reverse.mp ((List.takeWhile_sublist _).subset ha))
  have hall := takeWhile_append_all (fun c => decide (c ≠ '.'))
    (file.data.reverse.takeWhile (fun c => c ≠ '/')) [] hsub
  simp only [List.append_nil, List.takeWhile_nil] at hall
  have hex : extname file = "" := by
    apply String.ext
    show extnameL file.data = "".data
    simp only [extnameL, hall]
    simp
  rw [ext, hex]
  apply String.ext
  show replaceFirstL file.data "".data e.data = (e ++ file).data
  rw [show ("" : String).data = [] from rfl, replaceFirstL_nil_pat, String.data_append]

/-- C10 witness: the concrete instance named by the claim. -/
theorem c10_witness : ext "LICENSE" ".css" = ".cssLICENSE" := by
  rw [c10_ext_no_dot "LICENSE" ".css" (by decide)]
  decide

/- --------------------------------------------------------------------------
Claim theorems: C3, C4, C6, C9
-------------------------------------------------------------------------- -/

theorem revTakeWhile_ne_nil (s : List Char) (h1 : s ≠ [])
    (h2 : s.reverse.head? ≠ some '/') :
    s.reverse.takeWhile (fun c => c ≠ '/') ≠ [] := by
  have h := revTakeWhile_append_ne_nil [] s h1 h2
  simpa using h

theorem stage_value_ext (base stem tail enew : String)
    (hb1 : '.' ∉ base.data) (hb2 : '\\' ∉ base.data)
    (hs1 : stem.data ≠ []) (hs2 : '.' ∉ stem.data) (hs3 : '\\' ∉ stem.data)
    (hs4 : stem.data.reverse.head? ≠ some '/')
    (htd : '.' ∉ tail.data) (hts : '/' ∉ tail.data) (htn : tail.data ≠ [])
    (hed : '.' ∉ enew.data) (hes : '/' ∉ enew.data) (hen : enew.data ≠ [])
    (heb : '\\' ∉ enew.data) :
    normVal base (ext (base ++ "/" ++ (stem ++ "." ++ tail)) ("." ++ enew))
      = stem ++ "." ++ enew
    ∧ extname (normVal base (ext (base ++ "/" ++ (stem ++ "." ++ tail)) ("." ++ enew)))
      = "." ++ enew := by
  have hE : base ++ "/" ++ (stem ++ "." ++ tail) = base ++ "/" ++ stem ++ "." ++ tail := by
    apply String.ext
    simp [String.data_append]
  have hpred : (base ++ "/" ++ stem).data = (base ++ "/").data ++ stem.data :=
    String.data_append _ _
  have hpd : '.' ∉ (base ++ "/" ++ stem).data := by
    rw [hpred]
    intro hm
    rcases List.mem_append.mp hm with h1 | h2
    · rw [String.data_append] at h1
      rcases List.mem_append.mp h1 with h3 | h4
      · exact hb1 h3
      · rw [show ("/" : String).data = ['/'] from rfl] at h4
        simp at h4
    · exact hs2 h2
  have hne : (base ++ "/" ++ stem).data.reverse.takeWhile (fun c => c ≠ '/') ≠ [] := by
    rw [hpred]
    exact revTakeWhile_append_ne_nil (base ++ "/").data stem.data hs1 hs4
  have hv := ext_shape (base ++ "/" ++ stem) tail ("." ++ enew) hpd hne htd hts htn
  have hW : base ++ "/" ++ stem ++ ("." ++ enew) = base ++ "/" ++ (stem ++ "." ++ enew) := by
    apply String.ext
    simp [String.data_append]
  have hwbs : '\\' ∉ (stem ++ "." ++ enew).data := by
    simp only [String.data_append]
    intro hm
    rcases List.mem_append.mp hm with h1 | h2
    · rcases List.mem_append.mp h1 with h3 | h4
      · exact hs3 h3
      · simp at h4
    · exact heb h2
  have hstrip : normVal base (base ++ "/" ++ (stem ++ "." ++ enew)) = stem ++ "." ++ enew :=
    normVal_strip base (stem ++ "." ++ enew) hb2 hwbs
  have hval : normVal base (ext (base ++ "/" ++ (stem ++ "." ++ tail)) ("." ++ enew))
      = stem ++ "." ++ enew := by
    rw [hE, hv, hW, hstrip]
  refine ⟨hval, ?_⟩
  rw [hval]
  exact extname_shape stem enew (revTakeWhile_ne_nil stem.data hs1 hs4) hed hes hen

/-- C3, counterexample: the style input `a.scss.scss` matches the style
pattern and has the form `x.scss`, but `ext` replaces only the *first*
occurrence of the extname substring, so both the manifest key and the
normalized value come out as `a.css.scss`, whose extension is `.scss`, not
`.css`. -/
theorem c3_counterexample :
    (stylePair "dist" "a.scss.scss").1 = "a.css.scss"
    ∧ extname "a.css.scss" = ".scss"
    ∧ normVal "dist" (stylePair "dist" "a.scss.scss").2 = "a.css.scss"
    ∧ extname (normVal "dist" (stylePair "dist" "a.scss.scss").2) ≠ ".css" := by
  decide

/-- C3, amended: for style inputs `stem.scss` whose stem contains no dot (so
`.scss` occurs exactly once in the path), the manifest value's extension is
`.css`; for script inputs `stem.ts` with dot-free stem it is `.js`; and every
manifest key originates from a style-stage or script-stage pair — no other
source appears as a key. -/
theorem c3_amended (base stem : String)
    (hb1 : '.' ∉ base.data) (hb2 : '\\' ∉ base.data)
    (hs1 : stem.data ≠ []) (hs2 : '.' ∉ stem.data) (hs3 : '\\' ∉ stem.data)
    (hs4 : stem.data.reverse.head? ≠ some '/') :
    extname (normVal base (stylePair base (stem ++ ".scss")).2) = ".css"
    ∧ extname (normVal base (scriptPair base (stem ++ ".ts")).2) = ".js"
    ∧ ∀ (styles scripts : List String) (k : String),
        manifestLookup
          (lastManifest base [styles.map (stylePair base), scripts.map (scriptPair base)])
          k ≠ none →
        (∃ f ∈ styles, normKey (stylePair base f).1 = k)
        ∨ ∃ f ∈ scripts, normKey (scriptPair base f).1 = k := by
  obtain ⟨hv1, he1⟩ := stage_value_ext base stem "scss" "css" hb1 hb2 hs1 hs2 hs3 hs4
    (by decide) (by decide) (by decide) (by decide) (by decide) (by decide) (by decide)
  obtain ⟨hv2, he2⟩ := stage_value_ext base stem "ts" "js" hb1 hb2 hs1 hs2 hs3 hs4
    (by decide) (by decide) (by decide) (by decide) (by decide) (by decide) (by decide)
  have hl1 : stem ++ ".scss" = stem ++ "." ++ "scss" := by
    apply String.ext
    rw [String.data_append, String.data_append, String.data_append,
      show ("." : String).data = ['.'] from rfl,
      show (".scss" : String).data = '.' :: "scss".data from rfl]
    simp
  have hl2 : stem ++ ".ts" = stem ++ "." ++ "ts" := by
    apply String.ext
    rw [String.data_append, String.data_append, String.data_append,
      show ("." : String).data = ['.'] from rfl,
      show (".ts" : String).data = '.' :: "ts".data from rfl]
    simp
  have hcss : (".css" : String) = "." ++ "css" := by
    apply String.ext
    decide
  have hjs : (".js" : String) = "." ++ "js" := by
    apply String.ext
    decide
  refine ⟨?_, ?_, ?_⟩
  · show extname (normVal base (ext (base ++ "/" ++ (stem ++ ".scss")) ".css")) = ".css"
    rw [hl1, hcss]
    exact he1
  · show extname (normVal base (ext (base ++ "/" ++ (stem ++ ".ts")) ".js")) = ".js"
    rw [hl2, hjs]
    exact he2
  · intro styles scripts k h
    have hfold : lastManifest base [styles.map (stylePair base), scripts.map (scriptPair base)]
        = foldBatch base (foldBatch base [] (styles.map (stylePair base)))
            (scripts.map (scriptPair base)) := rfl
    rw [hfold, lookup_foldBatch, lookup_foldBatch] at h
    cases hj : batchLookup base (scripts.map (scriptPair base)) k with
    | some v =>
      right
      obtain ⟨kv, hkv, hke⟩ := batchLookup_mem base (scripts.map (scriptPair base)) k
        (by rw [hj]; exact fun hx => Option.noConfusion hx)
      obtain ⟨f, hf, hfe⟩ := List.mem_map.mp hkv
      exact ⟨f, hf, by rw [hfe]; exact hke⟩
    | none =>
      left
      rw [hj] at h
      cases hsx : batchLookup base (styles.map (stylePair base)) k with
      | some v =>
        obtain ⟨kv, hkv, hke⟩ := batchLookup_mem base (styles.map (stylePair base)) k
          (by rw [hsx]; exact fun hx => Option.noConfusion hx)
        obtain ⟨f, hf, hfe⟩ := List.mem_map.mp hkv
        exact ⟨f, hf, by rw [hfe]; exact hke⟩
      | none =>
        exfalso
        rw [hsx] at h
        simp [orD, manifestLookup] at h

/-- C3 witness: the amended statement at `base = "dist"`, `stem = "a"`. -/
theorem c3_witness :
    extname (normVal "dist" (stylePair "dist" ("a" ++ ".scss")).2) = ".css" :=
  (c3_amended "dist" "a" (by decide) (by decide) (by decide) (by decide) (by decide)
    (by decide)).1

/-- C4, counterexample: with the optimize flag and manifest entry
`foo.scss → foo.css`, the quoted literal `"fooxscss"` — which contains no
occurrence of the key `foo.scss` (second conjunct: a literal string search
finds nothing to replace) — is nevertheless rewritten to `"foo.css"`, because
the key is interpolated into the regex unescaped and its `.` matches `x`. -/
theorem c4_counterexample :
    applyManifest true [("foo.scss", "foo.css")] "\"fooxscss\"" = "\"foo.css\""
    ∧ jsReplace "\"fooxscss\"" "foo.scss" "X" = "\"fooxscss\"" := by
  decide

/-- C4, amended: without the optimize flag the rewrite is a no-op; text
containing no quote characters is never altered; and with the flag a quoted
literal matching the key *pattern* — the key with `.` acting as a wildcard,
since the key is not regex-escaped — is replaced by the equivalently-quoted
value, with the quote character preserved and surrounding text unchanged. -/
theorem c4_amended :
    (∀ (m : Manifest) (d : String), applyManifest false m d = d)
    ∧ (∀ (key value t : List Char),
        (∀ c ∈ t, ¬(c = dq ∨ c = sq)) → applyKeyL key value t = t)
    ∧ ∀ (key value pre post : List Char) (q : Char),
        (q = dq ∨ q = sq) → (∀ c ∈ pre, ¬(c = dq ∨ c = sq)) →
        applyKeyL key value (pre ++ (q :: (key ++ q :: post)))
          = pre ++ (q :: (value ++ q :: applyKeyL key value post)) := by
  refine ⟨?_, ?_, ?_⟩
  · intro m d
    simp [applyManifest]
  · exact applyKeyL_no_quote
  · intro key value pre post q hq hpre
    rw [applyKeyL_append_no_quote key value pre (q :: (key ++ q :: post)) hpre]
    have h2 : applyKeyL key value (q :: (key ++ q :: post))
        = q :: (value ++ q :: applyKeyL key value post) := by
      simpa using applyKeyL_quoted_head key value post q hq
    rw [h2]

/-- C4 witness: the amended quoted-replacement statement at the concrete
entry `foo.scss → foo.css` in an otherwise empty template. -/
theorem c4_witness :
    applyKeyL "foo.scss".data "foo.css".data
        ([] ++ (dq :: ("foo.scss".data ++ dq :: [])))
      = [] ++ (dq :: ("foo.css".data ++ dq :: applyKeyL "foo.scss".data "foo.css".data [])) :=
  c4_amended.2.2 "foo.scss".data "foo.css".data [] [] dq (Or.inl rfl)
    (by intro c hc; exact absurd hc (List.not_mem_nil c))

theorem copies_before_transforms (A tmpl : List BuildEvent)
    (hA : ∀ e ∈ A, ¬isTransform e) (ht : ∀ e ∈ tmpl, ¬isCopy e)
    (i j : Nat) (hi : i < (A ++ tmpl).length) (hj : j < (A ++ tmpl).length)
    (hci : isCopy ((A ++ tmpl)[i])) (htj : isTransform ((A ++ tmpl)[j])) : i < j := by
  have hiA : i < A.length := by
    by_contra hge
    push_neg at hge
    have hlt : i - A.length < tmpl.length := by
      rw [List.length_append] at hi
      omega
    have he : (A ++ tmpl)[i] = tmpl[i - A.length] := List.getElem_append_right hge
    exact ht _ (he ▸ List.getElem_mem hlt) hci
  have hjA : A.length ≤ j := by
    by_contra hlt
    push_neg at hlt
    have he : (A ++ tmpl)[j] = A[j] := List.getElem_append_left hlt
    exact hA _ (he ▸ List.getElem_mem hlt) htj
  omega

/-- C6 (confirmed): in the non-dirty one-shot trace, every asset-copy
completion precedes every transform-stage start (`concat(assets$, templates$)`
subscribes the cold transform work only after all copy passes complete); with
the dirty flag the trace is exactly the `templates$` trace — no copy events
occur and the transform phase starts immediately. -/
theorem c6_phase_order (base : String) (tmpl : List BuildEvent)
    (h : ∀ e ∈ tmpl, ¬isCopy e) :
    (∀ (i j : Nat) (hi : i < (buildTrace false base tmpl).length)
        (hj : j < (buildTrace false base tmpl).length),
        isCopy ((buildTrace false base tmpl)[i]) →
        isTransform ((buildTrace false base tmpl)[j]) → i < j)
    ∧ buildTrace true base tmpl = tmpl
    ∧ ∀ e ∈ buildTrace true base tmpl, ¬isCopy e := by
  have hA : ∀ e ∈ assetsTrace base, ¬isTransform e := by
    intro e he
    simp only [assetsTrace, List.mem_map] at he
    obtain ⟨p, _, hpe⟩ := he
    rw [← hpe]
    simp [isTransform]
  refine ⟨?_, rfl, h⟩
  intro i j hi hj hci htj
  exact copies_before_transforms (assetsTrace base) tmpl hA h i j hi hj hci htj

/-- C6 witness: the dirty-mode conjunct at a concrete transform-only trace. -/
theorem c6_witness :
    buildTrace true "dist" [BuildEvent.transformStart "a.scss"]
      = [BuildEvent.transformStart "a.scss"] :=
  (c6_phase_order "dist" [BuildEvent.transformStart "a.scss"]
    (by intro e he; simp at he; subst he; simp [isCopy])).2.1

/-- C9 (confirmed): under the `switchMap` cancellation semantics of
`templates$`, a rewrite pass that runs to completion was started by the
latest manifest emission that had arrived by its completion time — every
earlier pass is cancelled and restarted with the newly emitted manifest, so
a completed pass always used the most recent snapshot. -/
theorem c9_switch_latest (base : String) (batches : List (List (String × String)))
    (arrival dur : Nat → Nat) (i j : Nat)
    (hj : j < (templatePasses base batches).length)
    (hcomp : passCompletes arrival dur (templatePasses base batches).length i)
    (hle : arrival j ≤ passEnd arrival dur i) : j ≤ i := by
  by_contra hgt
  push_neg at hgt
  have hc := hcomp j hgt hj
  omega

/-- C9 witness: a single-emission run in which pass 0 completes. -/
theorem c9_witness :
    0 < (templatePasses "dist" [[("a.css", "a.css")]]).length ∧ (0 : Nat) ≤ 0 := by
  refine ⟨by decide, ?_⟩
  apply c9_switch_latest "dist" [[("a.css", "a.css")]] id (fun _ => 5) 0 0
  · decide
  · intro j h1 h2
    have hlen : (templatePasses "dist" [[("a.css", "a.css")]]).length = 1 := by decide
    rw [hlen] at h2
    exact absurd h1 (by omega)
  · decide

end Build
